import Mathlib

/-!
Verification of the company-data search-ingestion core: the `CompanyRecord`
data model of `src/searchdb/data_models.py` (normalization primitive
`_make_unique_list`, the `add_*` mutators, `merge_with`,
`to_elasticsearch_doc`, the `from_csv_row` / `from_json_record` constructors
and `aggregate_json_records_by_domain`), the read-back conversion
`_doc_to_company_record` of `src/searchdb/elasticsearch_importer.py`, and the
`build_search_query` function of `src/dashboard/api.py`.

Python strings are modelled as lists of characters (`PyStr`), `None`-able
values as `Option`, dictionaries with a fixed key vocabulary as structures of
optional fields, Python `dict` results as insertion-ordered association
lists, and raised `ValueError`s as `Except` errors.
-/

namespace SearchDb

/-- Python strings, modelled as lists of characters. -/
abbrev PyStr := List Char

/-- Python `str.strip()`: remove leading and trailing whitespace. -/
def pyStrip (s : PyStr) : PyStr :=
  List.rdropWhile Char.isWhitespace (List.dropWhile Char.isWhitespace s)

/-- One item of the `_make_unique_list` loop body: a `None` item is dropped,
any other item is stripped and then dropped when it is empty after the
strip. -/
def cleanItem : Option PyStr → Option PyStr
  | none => none
  | some s => if pyStrip s = [] then none else some (pyStrip s)

/-- The loop of `CompanyRecord._make_unique_list`: walk the items keeping a
`seen` set (modelled as a list queried only through membership), emitting each
cleaned item the first time it appears. -/
def makeUniqueListGo : List (Option PyStr) → List PyStr → List PyStr
  | [], _ => []
  | item :: rest, seen =>
    match cleanItem item with
    | none => makeUniqueListGo rest seen
    | some t =>
      if t ∈ seen then makeUniqueListGo rest seen
      else t :: makeUniqueListGo rest (t :: seen)

/-- `CompanyRecord._make_unique_list` (the early return on an empty input
coincides with the loop base case). -/
def makeUniqueList (items : List (Option PyStr)) : List PyStr :=
  makeUniqueListGo items []

/-- Specification-side first-occurrence deduplication: keep each value of the
list the first time it occurs, dropping the later copies. -/
def dedupFirst : List PyStr → List PyStr
  | [] => []
  | x :: xs => x :: (dedupFirst xs).filter (fun y => decide (y ≠ x))

/-- A string is clean when it is non-empty and stripping is the identity on
it: exactly the shape of values emitted by `_make_unique_list`. -/
def IsClean (s : PyStr) : Prop := s ≠ [] ∧ pyStrip s = s

instance (s : PyStr) : Decidable (IsClean s) := by
  unfold IsClean; infer_instance

/-- A clean field: no duplicates and every entry clean, the invariant that
`__post_init__` establishes on every `CompanyRecord` collection. -/
def CleanList (l : List PyStr) : Prop := l.Nodup ∧ ∀ s ∈ l, IsClean s

instance (l : List PyStr) : Decidable (CleanList l) := by
  unfold CleanList; infer_instance

/-- The `CompanyRecord` dataclass: a domain plus six list fields. -/
structure CompanyRecord where
  domain : PyStr
  company_names : List PyStr
  phones : List PyStr
  social_media : List PyStr
  addresses : List PyStr
  page_types : List PyStr
  urls : List PyStr
deriving DecidableEq, Repr, Inhabited

/-- Names for the six list fields of a `CompanyRecord`. -/
inductive RecField
  | names
  | phonesF
  | socialMedia
  | addressesF
  | pageTypes
  | urlsF
deriving DecidableEq, Repr, Fintype

/-- Project one of the six list fields of a record. -/
def CompanyRecord.fieldGet (r : CompanyRecord) : RecField → List PyStr
  | RecField.names => r.company_names
  | RecField.phonesF => r.phones
  | RecField.socialMedia => r.social_media
  | RecField.addressesF => r.addresses
  | RecField.pageTypes => r.page_types
  | RecField.urlsF => r.urls

/-- The dataclass constructor followed by `__post_init__`, which replaces
every list field with `_make_unique_list` of it. The domain is stored
unchanged. -/
def mkCompanyRecord (domain : PyStr)
    (company_names phones social_media addresses page_types urls :
      List (Option PyStr)) : CompanyRecord :=
  { domain := domain
    company_names := makeUniqueList company_names
    phones := makeUniqueList phones
    social_media := makeUniqueList social_media
    addresses := makeUniqueList addresses
    page_types := makeUniqueList page_types
    urls := makeUniqueList urls }

/-- The shared body of the `add_*` mutators: a falsy (empty) argument is a
no-op, otherwise the concatenation is re-normalized with
`_make_unique_list`. -/
def addFieldList (cur : List PyStr) (new : List (Option PyStr)) :
    List PyStr :=
  if new = [] then cur else makeUniqueList (cur.map some ++ new)

/-- `CompanyRecord.add_company_names`. -/
def add_company_names (r : CompanyRecord) (names : List (Option PyStr)) :
    CompanyRecord :=
  { r with company_names := addFieldList r.company_names names }

/-- `CompanyRecord.add_phones`. -/
def add_phones (r : CompanyRecord) (phones : List (Option PyStr)) :
    CompanyRecord :=
  { r with phones := addFieldList r.phones phones }

/-- `CompanyRecord.add_social_media`. -/
def add_social_media (r : CompanyRecord) (links : List (Option PyStr)) :
    CompanyRecord :=
  { r with social_media := addFieldList r.social_media links }

/-- `CompanyRecord.add_addresses`. -/
def add_addresses (r : CompanyRecord) (addresses : List (Option PyStr)) :
    CompanyRecord :=
  { r with addresses := addFieldList r.addresses addresses }

/-- `CompanyRecord.add_page_types`. -/
def add_page_types (r : CompanyRecord) (page_types : List (Option PyStr)) :
    CompanyRecord :=
  { r with page_types := addFieldList r.page_types page_types }

/-- `CompanyRecord.add_urls`. -/
def add_urls (r : CompanyRecord) (urls : List (Option PyStr)) :
    CompanyRecord :=
  { r with urls := addFieldList r.urls urls }

/-- The `ValueError`s raised by the data-model module, by meaning: the
missing-domain message of the two constructors and the mismatched-domain
message of `merge_with`. -/
inductive PyError
  | missingDomain
  | domainMismatch
deriving DecidableEq, Repr

/-- `CompanyRecord.merge_with`: raise on differing domains, otherwise build a
fresh record for the domain and feed the concatenation of each pair of fields
through the corresponding `add_*` mutator. The inputs are never written to:
the source constructs a new record and mutates only it, which the embedding
renders as a pure function of the two arguments. -/
def merge_with (self other : CompanyRecord) : Except PyError CompanyRecord :=
  if self.domain ≠ other.domain then
    Except.error PyError.domainMismatch
  else
    let m0 := mkCompanyRecord self.domain [] [] [] [] [] []
    let m1 := add_company_names m0
      ((self.company_names ++ other.company_names).map some)
    let m2 := add_phones m1 ((self.phones ++ other.phones).map some)
    let m3 := add_social_media m2
      ((self.social_media ++ other.social_media).map some)
    let m4 := add_addresses m3 ((self.addresses ++ other.addresses).map some)
    let m5 := add_page_types m4
      ((self.page_types ++ other.page_types).map some)
    let m6 := add_urls m5 ((self.urls ++ other.urls).map some)
    Except.ok m6

/-- Values stored in an Elasticsearch document: the domain is a string, the
six list fields are arrays of strings. -/
inductive DocValue
  | str (s : PyStr)
  | strList (l : List PyStr)
deriving DecidableEq, Repr, Inhabited

/-- An Elasticsearch document, modelled as an insertion-ordered association
list. -/
abbrev EsDoc := List (PyStr × DocValue)

/-- The document key under which a record field is stored. -/
def fieldKey : RecField → PyStr
  | RecField.names => "company_names".toList
  | RecField.phonesF => "phones".toList
  | RecField.socialMedia => "social_media".toList
  | RecField.addressesF => "addresses".toList
  | RecField.pageTypes => "page_types".toList
  | RecField.urlsF => "urls".toList

/-- `CompanyRecord.to_elasticsearch_doc`: the domain always, then each list
field only when it is non-empty. -/
def to_elasticsearch_doc (r : CompanyRecord) : EsDoc :=
  [("domain".toList, DocValue.str r.domain)]
  ++ (if r.company_names ≠ [] then
        [("company_names".toList, DocValue.strList r.company_names)] else [])
  ++ (if r.phones ≠ [] then
        [("phones".toList, DocValue.strList r.phones)] else [])
  ++ (if r.social_media ≠ [] then
        [("social_media".toList, DocValue.strList r.social_media)] else [])
  ++ (if r.addresses ≠ [] then
        [("addresses".toList, DocValue.strList r.addresses)] else [])
  ++ (if r.page_types ≠ [] then
        [("page_types".toList, DocValue.strList r.page_types)] else [])
  ++ (if r.urls ≠ [] then
        [("urls".toList, DocValue.strList r.urls)] else [])

/-- Key lookup in a document (Python `dict` access). -/
def docLookup (doc : EsDoc) (key : PyStr) : Option DocValue :=
  match doc with
  | [] => none
  | (k, v) :: rest => if k = key then some v else docLookup rest key

/-- `doc.get(key)` followed by the truthiness test of the importer: a missing
key, a non-array value or an empty array all read back as the empty list. -/
def docGetList (doc : EsDoc) (key : PyStr) : List PyStr :=
  match docLookup doc key with
  | some (DocValue.strList l) => l
  | _ => []

/-- `ElasticsearchImporter._doc_to_company_record`: build an empty record for
the domain, then feed each truthy document field through its `add_*`
mutator. -/
def doc_to_company_record (doc : EsDoc) (domain : PyStr) : CompanyRecord :=
  let r := mkCompanyRecord domain [] [] [] [] [] []
  let v1 := docGetList doc "company_names".toList
  let r := if v1 ≠ [] then add_company_names r (v1.map some) else r
  let v2 := docGetList doc "phones".toList
  let r := if v2 ≠ [] then add_phones r (v2.map some) else r
  let v3 := docGetList doc "social_media".toList
  let r := if v3 ≠ [] then add_social_media r (v3.map some) else r
  let v4 := docGetList doc "addresses".toList
  let r := if v4 ≠ [] then add_addresses r (v4.map some) else r
  let v5 := docGetList doc "page_types".toList
  let r := if v5 ≠ [] then add_page_types r (v5.map some) else r
  let v6 := docGetList doc "urls".toList
  let r := if v6 ≠ [] then add_urls r (v6.map some) else r
  r

/-- `str.split(sep)` loop: accumulate the current segment (reversed) and cut
at each separator; the final segment always flushes, so the result is never
empty. -/
def pySplitGo (sep : Char) : List Char → PyStr → List PyStr
  | [], cur => [cur.reverse]
  | c :: rest, cur =>
    if c = sep then cur.reverse :: pySplitGo sep rest []
    else pySplitGo sep rest (c :: cur)

/-- Python `s.split(sep)` for a one-character separator. -/
def pySplit (s : PyStr) (sep : Char) : List PyStr :=
  pySplitGo sep s []

/-- `CompanyRecord.add_company_names_from_pipe_separated`: on a truthy
argument, split on `|`, strip each segment and add the results. -/
def add_company_names_from_pipe_separated (r : CompanyRecord)
    (pipe_separated : Option PyStr) : CompanyRecord :=
  match pipe_separated with
  | some s =>
    if s ≠ [] then
      add_company_names r (((pySplit s '|').map pyStrip).map some)
    else r
  | none => r

/-- Python `row.get(key)` combined with the truthiness test used throughout
the module: a missing key and an empty string are both falsy. -/
def getTruthy (o : Option PyStr) : Option PyStr :=
  match o with
  | some s => if s = [] then none else some s
  | none => none

/-- A CSV row, with the four columns the constructor reads; an absent column
is `none`. -/
structure CsvRow where
  domain : Option PyStr
  company_commercial_name : Option PyStr
  company_legal_name : Option PyStr
  company_all_available_names : Option PyStr
deriving DecidableEq, Repr

/-- `CompanyRecord.from_csv_row`: reject a missing or empty domain, then add
the commercial name, the legal name and the pipe-separated names in that
order. -/
def from_csv_row (row : CsvRow) : Except PyError CompanyRecord :=
  match getTruthy row.domain with
  | none => Except.error PyError.missingDomain
  | some d =>
    let r := mkCompanyRecord d [] [] [] [] [] []
    let r := match getTruthy row.company_commercial_name with
      | some s => add_company_names r [some s]
      | none => r
    let r := match getTruthy row.company_legal_name with
      | some s => add_company_names r [some s]
      | none => r
    let r := match getTruthy row.company_all_available_names with
      | some s => add_company_names_from_pipe_separated r (some s)
      | none => r
    Except.ok r

/-- The raw name values `from_csv_row` consolidates, in the order the
constructor adds them: commercial name, legal name, then the stripped
pipe-separated segments. -/
def csvNameSources (row : CsvRow) : List PyStr :=
  (match getTruthy row.company_commercial_name with
    | some s => [s]
    | none => [])
  ++ (match getTruthy row.company_legal_name with
      | some s => [s]
      | none => [])
  ++ (match getTruthy row.company_all_available_names with
      | some s => (pySplit s '|').map pyStrip
      | none => [])

/-- A scraped-page JSON record with the keys the constructor reads;
`social_media` may hold either an array of strings or a single string. -/
structure JsonRecord where
  domain : Option PyStr
  phone : Option PyStr
  social_media : Option (Sum (List PyStr) PyStr)
  address : Option PyStr
  page_type : Option PyStr
  url : Option PyStr
deriving DecidableEq, Repr

/-- `CompanyRecord.from_json_record`: reject a missing or empty domain, then
add each truthy scalar field, accepting `social_media` as a list or a single
string. -/
def from_json_record (record : JsonRecord) : Except PyError CompanyRecord :=
  match getTruthy record.domain with
  | none => Except.error PyError.missingDomain
  | some d =>
    let r := mkCompanyRecord d [] [] [] [] [] []
    let r := match getTruthy record.phone with
      | some s => add_phones r [some s]
      | none => r
    let r := match record.social_media with
      | some (Sum.inl links) =>
        if links ≠ [] then add_social_media r (links.map some) else r
      | some (Sum.inr s) =>
        if s ≠ [] then add_social_media r [some s] else r
      | none => r
    let r := match getTruthy record.address with
      | some s => add_addresses r [some s]
      | none => r
    let r := match getTruthy record.page_type with
      | some s => add_page_types r [some s]
      | none => r
    let r := match getTruthy record.url with
      | some s => add_urls r [some s]
      | none => r
    Except.ok r

/-- Lookup in the insertion-ordered mapping that models the Python `dict`
of `aggregate_json_records_by_domain`. -/
def lookupDomain : List (PyStr × CompanyRecord) → PyStr →
    Option CompanyRecord
  | [], _ => none
  | (k, v) :: rest, d => if k = d then some v else lookupDomain rest d

/-- In-place update of an existing key of the mapping, keeping its
position. -/
def updateDomain : List (PyStr × CompanyRecord) → PyStr → CompanyRecord →
    List (PyStr × CompanyRecord)
  | [], _, _ => []
  | (k, v) :: rest, d, r =>
    if k = d then (k, r) :: rest else (k, v) :: updateDomain rest d r

/-- The loop of `aggregate_json_records_by_domain`: skip records with a
missing or empty domain, otherwise construct a record and insert it or merge
it into the accumulated record for its domain. A raised error (impossible in
practice) would propagate, so the Python exceptions become `Except`
errors. -/
def aggregateGo : List JsonRecord → List (PyStr × CompanyRecord) →
    Except PyError (List (PyStr × CompanyRecord))
  | [], acc => Except.ok acc
  | record :: rest, acc =>
    match getTruthy record.domain with
    | none => aggregateGo rest acc
    | some d =>
      match from_json_record record with
      | Except.error e => Except.error e
      | Except.ok cr =>
        match lookupDomain acc d with
        | some existing =>
          match merge_with existing cr with
          | Except.error e => Except.error e
          | Except.ok merged => aggregateGo rest (updateDomain acc d merged)
        | none => aggregateGo rest (acc ++ [(d, cr)])

/-- `aggregate_json_records_by_domain`. -/
def aggregate_json_records_by_domain (records : List JsonRecord) :
    Except PyError (List (PyStr × CompanyRecord)) :=
  aggregateGo records []

/-- The per-record invariant `__post_init__` establishes and every operation
preserves: each of the six fields is a clean list. -/
def RecordWF (r : CompanyRecord) : Prop :=
  ∀ f : RecField, CleanList (r.fieldGet f)

instance (r : CompanyRecord) : Decidable (RecordWF r) := by
  unfold RecordWF; infer_instance

/-- The boost constants of `build_search_query` (3.0, 2.0 and 1.0; only
their identities matter, so they are carried as naturals). -/
def HIGHEST_BOOST : Nat := 3

/-- Medium boost constant of `build_search_query`. -/
def MEDIUM_BOOST : Nat := 2

/-- Lowest boost constant of `build_search_query`. -/
def LOWEST_BOOST : Nat := 1

/-- A should-clause of the query body: a fuzzy `match` (always with
fuzziness AUTO in the source) or an exact `term` clause, on a field, with a
boost. -/
inductive Clause
  | matchFuzzy (fld : PyStr) (query : PyStr) (boost : Nat)
  | termExact (fld : PyStr) (value : PyStr) (boost : Nat)
deriving DecidableEq, Repr

/-- The per-name tokenization loop of `build_search_query`: walk the
characters growing `current_part`, flushing it at each upper-case character
and at the end, keeping only parts of length at least 3. -/
def splitCapsGo : List Char → PyStr → List PyStr
  | [], cur => if cur ≠ [] ∧ 3 ≤ cur.length then [cur] else []
  | c :: rest, cur =>
    if c.isUpper then
      (if cur ≠ [] ∧ 3 ≤ cur.length then [cur] else [])
        ++ splitCapsGo rest [c]
    else splitCapsGo rest (cur ++ [c])

/-- The `name_parts` computed for one name by `build_search_query`. -/
def splitCaps (name : PyStr) : List PyStr :=
  splitCapsGo name []

/-- Specification-side: the same walk, but keeping every non-empty run, so
that it names the plain split of a string at capital-letter boundaries. -/
def capitalRunsGo : List Char → PyStr → List PyStr
  | [], cur => if cur ≠ [] then [cur] else []
  | c :: rest, cur =>
    if c.isUpper then
      (if cur ≠ [] then [cur] else []) ++ capitalRunsGo rest [c]
    else capitalRunsGo rest (cur ++ [c])

/-- Specification-side split of a name at capital-letter boundaries. -/
def capitalRuns (name : PyStr) : List PyStr :=
  capitalRunsGo name []

/-- Python `" ".join(parts)`. -/
def joinSpaces (parts : List PyStr) : PyStr :=
  List.intercalate [' '] parts

/-- The clauses `build_search_query` appends for one name: a fuzzy match and
an exact keyword match at highest boost, plus, when the capital-letter
tokenization is non-empty, a medium-boost fuzzy match on the re-joined
parts. -/
def clausesForName (name : PyStr) : List Clause :=
  [Clause.matchFuzzy "company_names".toList name HIGHEST_BOOST,
    Clause.termExact "company_names.keyword".toList name HIGHEST_BOOST]
  ++ (if splitCaps name ≠ [] then
        [Clause.matchFuzzy "company_names".toList (joinSpaces (splitCaps name))
          MEDIUM_BOOST]
      else [])

/-- The only sort specification the function ever emits:
`{"_score": {"order": "desc"}}`. -/
inductive SortSpec
  | scoreDesc
deriving DecidableEq, Repr

/-- The query body returned by `build_search_query`: either the bare
match-all fallback `{"query": {"match_all": {}}}` or a bool-should query
with `minimum_should_match` and a sort list. -/
inductive EsQuery
  | matchAll
  | boolShould (should : List Clause) (minimum_should_match : Nat)
      (sort : List SortSpec)
deriving DecidableEq, Repr

/-- `build_search_query` of `src/dashboard/api.py`. -/
def build_search_query (names phones urls addresses : List PyStr) : EsQuery :=
  let should_clauses :=
    (if names ≠ [] then names.flatMap clausesForName else [])
    ++ (if phones ≠ [] then
          phones.map (fun p => Clause.termExact "phones".toList p MEDIUM_BOOST)
        else [])
    ++ (if urls ≠ [] then
          urls.flatMap (fun u =>
            [Clause.termExact "domain".toList u HIGHEST_BOOST,
              Clause.termExact "urls".toList u MEDIUM_BOOST])
        else [])
    ++ (if addresses ≠ [] then
          addresses.map (fun a =>
            Clause.matchFuzzy "addresses".toList a LOWEST_BOOST)
        else [])
  if should_clauses = [] then EsQuery.matchAll
  else EsQuery.boolShould should_clauses 1 [SortSpec.scoreDesc]

/-- Specification-side: the query body carries an explicit
sort-by-relevance-score-descending instruction. -/
def specifiesScoreDescSort : EsQuery → Prop
  | EsQuery.matchAll => False
  | EsQuery.boolShould _ _ sort => SortSpec.scoreDesc ∈ sort

instance (q : EsQuery) : Decidable (specifiesScoreDescSort q) := by
  cases q <;> simp [specifiesScoreDescSort] <;> infer_instance

/-- Concrete sample record used by witnesses. -/
def recA : CompanyRecord :=
  { domain := "example.com".toList
    company_names := ["Example Corp".toList]
    phones := ["111222".toList]
    social_media := []
    addresses := []
    page_types := []
    urls := [] }

/-- Second sample record for the same domain as `recA`. -/
def recB : CompanyRecord :=
  { domain := "example.com".toList
    company_names := ["Example Inc".toList, "Example Corp".toList]
    phones := []
    social_media := ["t.co/x".toList]
    addresses := []
    page_types := []
    urls := [] }

/-- Sample record for a different domain. -/
def recC : CompanyRecord :=
  { domain := "other.com".toList
    company_names := []
    phones := []
    social_media := []
    addresses := []
    page_types := []
    urls := [] }

/-- The tabular row of end-to-end scenario A. -/
def scenarioRowA : CsvRow :=
  { domain := some "example.com".toList
    company_commercial_name := some "Example Corp".toList
    company_legal_name := some "Example Corporation Inc".toList
    company_all_available_names :=
      some "Example Corp|Example Inc|Example Company".toList }

/-- First scraped record of end-to-end scenario B. -/
def jsonMulti1 : JsonRecord :=
  { domain := some "multi.com".toList
    phone := some "+1-555-1001".toList
    social_media := some (Sum.inl ["t.co/multi".toList])
    address := none
    page_type := none
    url := none }

/-- Second scraped record of end-to-end scenario B. -/
def jsonMulti2 : JsonRecord :=
  { domain := some "multi.com".toList
    phone := some "+1-555-1002".toList
    social_media := some (Sum.inl ["fb.com/multi".toList, "t.co/multi".toList])
    address := none
    page_type := none
    url := none }

/-- A raw record lacking a usable domain. -/
def jsonNoDomain : JsonRecord :=
  { domain := some "".toList
    phone := some "999".toList
    social_media := none
    address := none
    page_type := none
    url := none }

lemma dropWhile_of_rdropWhile_dropWhile (p : Char → Bool) (s : List Char) :
    List.dropWhile p (List.rdropWhile p (List.dropWhile p s)) =
      List.rdropWhile p (List.dropWhile p s) := by
  cases hu : List.rdropWhile p (List.dropWhile p s) with
  | nil => simp
  | cons a u =>
    obtain ⟨r, hr⟩ := List.dropWhile_suffix (l := (List.dropWhile p s).reverse) p
    have hdec : List.dropWhile p s = (a :: u) ++ r.reverse := by
      have h1 := congrArg List.reverse hr
      rw [List.reverse_append, List.reverse_reverse] at h1
      rw [← h1, ← hu]
      simp [List.rdropWhile]
    have hhead : (List.dropWhile p s).head? = some a := by
      rw [hdec]; rfl
    have ha : ¬ p a := by
      have h2 := List.head?_dropWhile_not p s
      rw [hhead] at h2
      simpa using h2
    simp [List.dropWhile_cons, ha]

/-- Stripping is idempotent. -/
lemma pyStrip_idem (s : PyStr) : pyStrip (pyStrip s) = pyStrip s := by
  unfold pyStrip
  rw [dropWhile_of_rdropWhile_dropWhile, List.rdropWhile_idempotent]

/-- Every value produced by `cleanItem` is clean. -/
lemma isClean_of_cleanItem {o : Option PyStr} {t : PyStr}
    (h : cleanItem o = some t) : IsClean t := by
  rcases o with _ | s
  · simp [cleanItem] at h
  · by_cases hs : pyStrip s = []
    · simp [cleanItem, hs] at h
    · simp only [cleanItem, if_neg hs, Option.some.injEq] at h
      subst h
      exact ⟨hs, pyStrip_idem s⟩

/-- `cleanItem` is the identity on clean values. -/
lemma cleanItem_of_isClean {t : PyStr} (h : IsClean t) :
    cleanItem (some t) = some t := by
  simp [cleanItem, h.2, h.1]

/-- Membership in the `_make_unique_list` loop output. -/
lemma mem_makeUniqueListGo (items : List (Option PyStr)) (seen : List PyStr)
    (x : PyStr) :
    x ∈ makeUniqueListGo items seen ↔
      (∃ o ∈ items, cleanItem o = some x) ∧ x ∉ seen := by
  induction items generalizing seen with
  | nil => simp [makeUniqueListGo]
  | cons o rest ih =>
    cases ho : cleanItem o with
    | none =>
      simp only [makeUniqueListGo, ho, ih, List.mem_cons]
      constructor
      · rintro ⟨⟨o', ho', hc⟩, hx⟩
        exact ⟨⟨o', Or.inr ho', hc⟩, hx⟩
      · rintro ⟨⟨o', ho' | ho', hc⟩, hx⟩
        · subst ho'; rw [ho] at hc; cases hc
        · exact ⟨⟨o', ho', hc⟩, hx⟩
    | some t =>
      by_cases hmem : t ∈ seen
      · simp only [makeUniqueListGo, ho, if_pos hmem, ih, List.mem_cons]
        constructor
        · rintro ⟨⟨o', ho', hc⟩, hx⟩
          exact ⟨⟨o', Or.inr ho', hc⟩, hx⟩
        · rintro ⟨⟨o', ho' | ho', hc⟩, hx⟩
          · subst ho'; rw [ho] at hc
            cases hc
            exact absurd hmem hx
          · exact ⟨⟨o', ho', hc⟩, hx⟩
      · simp only [makeUniqueListGo, ho, if_neg hmem, List.mem_cons, ih]
        constructor
        · rintro (rfl | ⟨⟨o', ho', hc⟩, hx⟩)
          · exact ⟨⟨o, Or.inl rfl, ho⟩, hmem⟩
          · have hx2 : x ≠ t ∧ x ∉ seen := by
              simpa [List.mem_cons, not_or] using hx
            exact ⟨⟨o', Or.inr ho', hc⟩, hx2.2⟩
        · rintro ⟨⟨o', ho' | ho', hc⟩, hx⟩
          · subst ho'; rw [ho] at hc
            exact Or.inl (Option.some.inj hc).symm
          · by_cases hxt : x = t
            · exact Or.inl hxt
            · exact Or.inr ⟨⟨o', ho', hc⟩, by
                simp only [List.mem_cons, not_or]
                exact ⟨hxt, hx⟩⟩

/-- Membership in `_make_unique_list`: exactly the cleaned input values. -/
lemma mem_makeUniqueList (items : List (Option PyStr)) (x : PyStr) :
    x ∈ makeUniqueList items ↔ ∃ o ∈ items, cleanItem o = some x := by
  simp [makeUniqueList, mem_makeUniqueListGo]

/-- The `_make_unique_list` loop output has no duplicates. -/
lemma nodup_makeUniqueListGo (items : List (Option PyStr)) (seen : List PyStr) :
    (makeUniqueListGo items seen).Nodup := by
  induction items generalizing seen with
  | nil => simp [makeUniqueListGo]
  | cons o rest ih =>
    cases ho : cleanItem o with
    | none => simpa [makeUniqueListGo, ho] using ih seen
    | some t =>
      by_cases hmem : t ∈ seen
      · simpa [makeUniqueListGo, ho, if_pos hmem] using ih seen
      · simp only [makeUniqueListGo, ho, if_neg hmem, List.nodup_cons]
        refine ⟨fun hc => ?_, ih _⟩
        have := (mem_makeUniqueListGo rest (t :: seen) t).mp hc
        exact this.2 (List.mem_cons_self t seen)

/-- Every entry of a `_make_unique_list` output is clean. -/
lemma isClean_of_mem_makeUniqueList {items : List (Option PyStr)} {x : PyStr}
    (h : x ∈ makeUniqueList items) : IsClean x := by
  obtain ⟨o, _, hc⟩ := (mem_makeUniqueList items x).mp h
  exact isClean_of_cleanItem hc

/-- Every `_make_unique_list` output is a clean list. -/
lemma cleanList_makeUniqueList (items : List (Option PyStr)) :
    CleanList (makeUniqueList items) :=
  ⟨nodup_makeUniqueListGo items [], fun _ h => isClean_of_mem_makeUniqueList h⟩

lemma decide_not_mem_cons (x t : PyStr) (seen : List PyStr) :
    decide (x ∉ t :: seen) = (decide (x ∉ seen) && decide (x ≠ t)) := by
  by_cases h1 : x = t
  · subst h1; simp
  · by_cases h2 : x ∈ seen <;> simp [h1, h2]

/-- Running the loop over an already-clean, duplicate-free, unseen chunk
emits the chunk unchanged and marks it seen. -/
lemma makeUniqueListGo_clean_chunk (a : List PyStr) (rest : List (Option PyStr))
    (seen : List PyStr) (hc : ∀ x ∈ a, IsClean x) (hn : a.Nodup)
    (hs : ∀ x ∈ a, x ∉ seen) :
    makeUniqueListGo (a.map some ++ rest) seen =
      a ++ makeUniqueListGo rest (a.reverse ++ seen) := by
  induction a generalizing seen with
  | nil => simp
  | cons x a ih =>
    have hx : cleanItem (some x) = some x :=
      cleanItem_of_isClean (hc x (List.mem_cons_self x a))
    have hxs : x ∉ seen := hs x (List.mem_cons_self x a)
    simp only [List.map_cons, List.cons_append, makeUniqueListGo, hx,
      if_neg hxs, List.append_eq]
    rw [ih (x :: seen) (fun y hy => hc y (List.mem_cons_of_mem x hy))
      (List.nodup_cons.mp hn).2
      (fun y hy => by
        simp only [List.mem_cons, not_or]
        exact ⟨fun hyx => (List.nodup_cons.mp hn).1 (hyx ▸ hy),
          hs y (List.mem_cons_of_mem x hy)⟩)]
    simp [List.append_assoc]

/-- Running the loop over an already-clean, duplicate-free list just filters
out the values already seen. -/
lemma makeUniqueListGo_clean_filter (b : List PyStr) (seen : List PyStr)
    (hc : ∀ x ∈ b, IsClean x) (hn : b.Nodup) :
    makeUniqueListGo (b.map some) seen =
      b.filter (fun x => decide (x ∉ seen)) := by
  induction b generalizing seen with
  | nil => simp [makeUniqueListGo]
  | cons x b ih =>
    have hx : cleanItem (some x) = some x :=
      cleanItem_of_isClean (hc x (List.mem_cons_self x b))
    by_cases hmem : x ∈ seen
    · simp only [List.map_cons, makeUniqueListGo, hx, if_pos hmem,
        List.filter_cons, decide_eq_true_eq]
      rw [ih seen (fun y hy => hc y (List.mem_cons_of_mem x hy))
        (List.nodup_cons.mp hn).2]
      simp [hmem]
    · simp only [List.map_cons, makeUniqueListGo, hx, if_neg hmem,
        List.filter_cons, decide_eq_true_eq]
      rw [ih (x :: seen) (fun y hy => hc y (List.mem_cons_of_mem x hy))
        (List.nodup_cons.mp hn).2, if_pos hmem]
      refine congrArg (x :: ·) ?_
      refine List.filter_congr fun y hy => ?_
      rw [decide_not_mem_cons]
      have hyx : y ≠ x := fun h => (List.nodup_cons.mp hn).1 (h ▸ hy)
      simp [hyx]

/-- Re-running the loop over its own output absorbs into a single run. -/
lemma makeUniqueListGo_absorb (xs : List (Option PyStr))
    (ys : List (Option PyStr)) (seen : List PyStr) :
    makeUniqueListGo ((makeUniqueListGo xs seen).map some ++ ys) seen =
      makeUniqueListGo (xs ++ ys) seen := by
  induction xs generalizing seen with
  | nil => simp [makeUniqueListGo]
  | cons o rest ih =>
    cases ho : cleanItem o with
    | none => simp only [makeUniqueListGo, List.cons_append, ho]; exact ih seen
    | some t =>
      by_cases hmem : t ∈ seen
      · simp only [makeUniqueListGo, List.cons_append, ho, if_pos hmem]
        exact ih seen
      · have ht : cleanItem (some t) = some t :=
          cleanItem_of_isClean (isClean_of_cleanItem ho)
        simp only [makeUniqueListGo, List.cons_append, ho, if_neg hmem,
          List.map_cons, ht]
        exact congrArg (t :: ·) (ih (t :: seen))

/-- `_make_unique_list` applied to the concatenation of one of its own
outputs with further items equals a single application to the concatenated
raw inputs. -/
lemma makeUniqueList_absorb (xs ys : List (Option PyStr)) :
    makeUniqueList ((makeUniqueList xs).map some ++ ys) =
      makeUniqueList (xs ++ ys) :=
  makeUniqueListGo_absorb xs ys []

/-- First-occurrence deduplication commutes with filtering by a predicate on
the values. -/
lemma dedupFirst_filter (p : PyStr → Bool) (l : List PyStr) :
    (dedupFirst l).filter p = dedupFirst (l.filter p) := by
  induction l with
  | nil => simp [dedupFirst]
  | cons x xs ih =>
    by_cases hp : p x
    · have h1 : (x :: xs).filter p = x :: xs.filter p := by
        rw [List.filter_cons, if_pos hp]
      rw [h1]
      simp only [dedupFirst]
      rw [List.filter_cons, if_pos hp, ← ih, List.filter_filter,
        List.filter_filter]
      exact congrArg (x :: ·) (List.filter_congr fun y _ => Bool.and_comm _ _)
    · have h1 : (x :: xs).filter p = xs.filter p := by
        rw [List.filter_cons, if_neg hp]
      have hpx : p x = false := by simpa using hp
      rw [h1, ← ih]
      simp only [dedupFirst]
      rw [List.filter_cons, if_neg hp, List.filter_filter]
      refine List.filter_congr fun y _ => ?_
      by_cases hyx : y = x
      · subst hyx; simp [hpx]
      · simp [hyx]

/-- The loop is first-occurrence deduplication of the cleaned unseen items. -/
lemma makeUniqueListGo_eq_dedupFirst (items : List (Option PyStr))
    (seen : List PyStr) :
    makeUniqueListGo items seen =
      dedupFirst ((items.filterMap cleanItem).filter
        (fun x => decide (x ∉ seen))) := by
  induction items generalizing seen with
  | nil => simp [makeUniqueListGo, dedupFirst]
  | cons o rest ih =>
    cases ho : cleanItem o with
    | none =>
      simp only [makeUniqueListGo, ho, List.filterMap_cons]
      exact ih seen
    | some t =>
      by_cases hmem : t ∈ seen
      · have hd : decide (t ∉ seen) = false := by simp [hmem]
        simp only [makeUniqueListGo, ho, if_pos hmem, List.filterMap_cons,
          List.filter_cons, hd, Bool.false_eq_true, if_false]
        exact ih seen
      · have hd : decide (t ∉ seen) = true := by simp [hmem]
        simp only [makeUniqueListGo, ho, if_neg hmem, List.filterMap_cons,
          List.filter_cons, hd, if_true]
        rw [dedupFirst, ih (t :: seen), dedupFirst_filter,
          List.filter_filter]
        refine congrArg (t :: ·) (congrArg dedupFirst ?_)
        refine List.filter_congr fun y _ => ?_
        rw [decide_not_mem_cons, Bool.and_comm]

/-- `_make_unique_list` restated: first-occurrence deduplication of the
cleaned input stream. -/
lemma makeUniqueList_eq_dedupFirst (items : List (Option PyStr)) :
    makeUniqueList items = dedupFirst (items.filterMap cleanItem) := by
  rw [makeUniqueList, makeUniqueListGo_eq_dedupFirst]
  congr 1
  simp

/-- `_make_unique_list` is the identity on clean lists. -/
lemma makeUniqueList_of_cleanList {l : List PyStr} (h : CleanList l) :
    makeUniqueList (l.map some) = l := by
  rw [makeUniqueList, makeUniqueListGo_clean_filter l [] h.2 h.1]
  simp

/-- C1. `_make_unique_list` returns the trimmed entries in first-occurrence
order (formalized as equality with specification-side first-occurrence
deduplication of the cleaned input stream), with no duplicates and no
entries that are empty or not already trimmed, and it is idempotent. -/
theorem makeUniqueList_spec (items : List (Option PyStr)) :
    (makeUniqueList items).Nodup
    ∧ (∀ x ∈ makeUniqueList items, x ≠ [] ∧ pyStrip x = x)
    ∧ makeUniqueList items = dedupFirst (items.filterMap cleanItem)
    ∧ makeUniqueList ((makeUniqueList items).map some) =
        makeUniqueList items := by
  refine ⟨nodup_makeUniqueListGo items [],
    fun x hx => isClean_of_mem_makeUniqueList hx,
    makeUniqueList_eq_dedupFirst items,
    makeUniqueList_of_cleanList (cleanList_makeUniqueList items)⟩

/-- Witness for C1 at a concrete input holding a null, an empty entry, a
whitespace-only entry, an untrimmed entry and a duplicate. -/
theorem makeUniqueList_spec_witness :
    "ab".toList ≠ [] ∧ pyStrip "ab".toList = "ab".toList :=
  (makeUniqueList_spec
      [some " ab ".toList, none, some "".toList, some "  ".toList,
        some "ab".toList, some "cd".toList]).2.1
    "ab".toList (by decide)

lemma makeUniqueList_nil : makeUniqueList [] = [] := rfl

lemma addFieldList_nil_left (new : List (Option PyStr)) :
    addFieldList [] new = makeUniqueList new := by
  by_cases h : new = []
  · subst h; rfl
  · simp [addFieldList, h]

/-- `merge_with` on equal domains: the explicit merged record. -/
lemma merge_with_eq (a b : CompanyRecord) (h : a.domain = b.domain) :
    merge_with a b = Except.ok
      { domain := a.domain
        company_names :=
          makeUniqueList ((a.company_names ++ b.company_names).map some)
        phones := makeUniqueList ((a.phones ++ b.phones).map some)
        social_media :=
          makeUniqueList ((a.social_media ++ b.social_media).map some)
        addresses := makeUniqueList ((a.addresses ++ b.addresses).map some)
        page_types :=
          makeUniqueList ((a.page_types ++ b.page_types).map some)
        urls := makeUniqueList ((a.urls ++ b.urls).map some) } := by
  rw [merge_with, if_neg (not_not_intro h)]
  simp only [mkCompanyRecord, add_company_names, add_phones, add_social_media,
    add_addresses, add_page_types, add_urls, makeUniqueList_nil,
    addFieldList_nil_left]

/-- `merge_with` on equal domains, per projected field. -/
lemma merge_with_fieldGet (a b : CompanyRecord) (h : a.domain = b.domain) :
    ∃ m, merge_with a b = Except.ok m ∧ m.domain = a.domain ∧
      ∀ f, m.fieldGet f =
        makeUniqueList ((a.fieldGet f ++ b.fieldGet f).map some) := by
  refine ⟨_, merge_with_eq a b h, rfl, fun f => ?_⟩
  cases f <;> rfl

/-- `merge_with` raises the domain-mismatch error exactly on differing
domains. -/
lemma merge_with_error_iff (a b : CompanyRecord) :
    merge_with a b = Except.error PyError.domainMismatch ↔
      a.domain ≠ b.domain := by
  constructor
  · intro he
    by_contra hd
    obtain ⟨m, hm, _, _⟩ := merge_with_fieldGet a b hd
    rw [hm] at he
    exact Except.noConfusion he
  · intro hd
    rw [merge_with, if_pos hd]

/-- C2. `merge_with` fails with the domain-mismatch error iff the domains
differ; on equal domains it returns a new record whose every field is
`_make_unique_list` of the concatenated fields. Neither input is written to:
the source mutates only the freshly constructed record, so the embedded
`merge_with` is a pure function of its two arguments. -/
theorem merge_with_spec (a b : CompanyRecord) :
    (merge_with a b = Except.error PyError.domainMismatch ↔
      a.domain ≠ b.domain)
    ∧ (a.domain = b.domain →
        ∃ m, merge_with a b = Except.ok m ∧ m.domain = a.domain ∧
          ∀ f, m.fieldGet f =
            makeUniqueList ((a.fieldGet f ++ b.fieldGet f).map some)) :=
  ⟨merge_with_error_iff a b, merge_with_fieldGet a b⟩

/-- Witness for C2: a mismatched pair fails, a matched pair merges. -/
theorem merge_with_spec_witness :
    merge_with recA recC = Except.error PyError.domainMismatch
    ∧ ∃ m, merge_with recA recB = Except.ok m ∧ m.domain = recA.domain ∧
        ∀ f, m.fieldGet f =
          makeUniqueList ((recA.fieldGet f ++ recB.fieldGet f).map some) :=
  ⟨(merge_with_spec recA recC).1.mpr (by decide),
    (merge_with_spec recA recB).2 (by decide)⟩

/-- C3. Merge is commutative in content: on equal domains both merge orders
succeed and, for every field, the two results hold the same set of values. -/
theorem merge_content_comm (a b : CompanyRecord) (h : a.domain = b.domain) :
    ∃ m₁ m₂, merge_with a b = Except.ok m₁ ∧ merge_with b a = Except.ok m₂
      ∧ ∀ f x, (x ∈ m₁.fieldGet f ↔ x ∈ m₂.fieldGet f) := by
  obtain ⟨m₁, h1, _, hf1⟩ := merge_with_fieldGet a b h
  obtain ⟨m₂, h2, _, hf2⟩ := merge_with_fieldGet b a h.symm
  refine ⟨m₁, m₂, h1, h2, fun f x => ?_⟩
  rw [hf1 f, hf2 f, mem_makeUniqueList, mem_makeUniqueList]
  have hsym : ∀ (o : Option PyStr) (u v : List PyStr),
      o ∈ (u ++ v).map some → o ∈ (v ++ u).map some := by
    intro o u v ho
    simp only [List.mem_map, List.mem_append] at ho ⊢
    obtain ⟨s, hs, rfl⟩ := ho
    exact ⟨s, hs.elim Or.inr Or.inl, rfl⟩
  constructor <;> rintro ⟨o, ho, hc⟩
  · exact ⟨o, hsym o _ _ ho, hc⟩
  · exact ⟨o, hsym o _ _ ho, hc⟩

/-- Witness for C3 at two concrete same-domain records. -/
theorem merge_content_comm_witness :
    ∃ m₁ m₂, merge_with recA recB = Except.ok m₁
      ∧ merge_with recB recA = Except.ok m₂
      ∧ ∀ f x, (x ∈ m₁.fieldGet f ↔ x ∈ m₂.fieldGet f) :=
  merge_content_comm recA recB (by decide)

/-- C10. Merge output order is deterministic: on equal domains of records
satisfying the dataclass invariant, every merged field is the first record's
entries in order followed by the second record's novel entries in order (so
the first record's field is a prefix, and the output is a function of the
inputs, not merely set-determined). -/
theorem merge_with_order (a b : CompanyRecord) (ha : RecordWF a)
    (hb : RecordWF b) (h : a.domain = b.domain) :
    ∃ m, merge_with a b = Except.ok m ∧
      ∀ f, m.fieldGet f = a.fieldGet f ++
        (b.fieldGet f).filter (fun x => decide (x ∉ a.fieldGet f)) := by
  obtain ⟨m, h1, _, hf⟩ := merge_with_fieldGet a b h
  refine ⟨m, h1, fun f => ?_⟩
  rw [hf f, List.map_append, makeUniqueList,
    makeUniqueListGo_clean_chunk (a.fieldGet f) ((b.fieldGet f).map some) []
      (ha f).2 (ha f).1 (by simp),
    makeUniqueListGo_clean_filter (b.fieldGet f) _ (hb f).2 (hb f).1]
  refine congrArg (a.fieldGet f ++ ·) (List.filter_congr fun y _ => ?_)
  rw [decide_eq_decide]
  simp

/-- Witness for C10 at two concrete well-formed records. -/
theorem merge_with_order_witness :
    ∃ m, merge_with recA recB = Except.ok m ∧
      ∀ f, m.fieldGet f = recA.fieldGet f ++
        (recB.fieldGet f).filter (fun x => decide (x ∉ recA.fieldGet f)) :=
  merge_with_order recA recB (by decide) (by decide) (by decide)

lemma docLookup_append (d1 d2 : EsDoc) (k : PyStr) :
    docLookup (d1 ++ d2) k =
      match docLookup d1 k with
      | some v => some v
      | none => docLookup d2 k := by
  induction d1 with
  | nil => simp [docLookup]
  | cons p rest ih =>
    obtain ⟨k0, v0⟩ := p
    by_cases h : k0 = k <;> simp [docLookup, h, ih]

lemma docLookup_ite_singleton_ne (c : Prop) [Decidable c] (k0 k : PyStr)
    (v : DocValue) (h : ¬ k0 = k) :
    docLookup (if c then [(k0, v)] else []) k = none := by
  split <;> simp [docLookup, h]

lemma docLookup_ite_nil_ne (c : Prop) [Decidable c] (k0 k : PyStr)
    (v : DocValue) (h : ¬ k0 = k) :
    docLookup (if c then [] else [(k0, v)]) k = none := by
  split <;> simp [docLookup, h]

lemma docLookup_ite_singleton_self (c : Prop) [Decidable c] (k0 : PyStr)
    (v : DocValue) :
    docLookup (if c then [(k0, v)] else []) k0 =
      if c then some v else none := by
  split <;> simp [docLookup]

lemma docLookup_ite_nil_self (c : Prop) [Decidable c] (k0 : PyStr)
    (v : DocValue) :
    docLookup (if c then [] else [(k0, v)]) k0 =
      if c then none else some v := by
  split <;> simp [docLookup]

/-- Field lookup in a projected document: present with the full list exactly
when the field is non-empty. -/
lemma docLookup_to_es_field (r : CompanyRecord) (f : RecField) :
    docLookup (to_elasticsearch_doc r) (fieldKey f) =
      if r.fieldGet f = [] then none
      else some (DocValue.strList (r.fieldGet f)) := by
  cases f
  · by_cases h : r.company_names = [] <;>
      simp +decide [to_elasticsearch_doc, fieldKey, CompanyRecord.fieldGet,
        docLookup_append, docLookup_ite_singleton_ne, docLookup_ite_nil_ne,
        docLookup_ite_singleton_self, docLookup_ite_nil_self, docLookup,
        ite_not, h]
  · by_cases h : r.phones = [] <;>
      simp +decide [to_elasticsearch_doc, fieldKey, CompanyRecord.fieldGet,
        docLookup_append, docLookup_ite_singleton_ne, docLookup_ite_nil_ne,
        docLookup_ite_singleton_self, docLookup_ite_nil_self, docLookup,
        ite_not, h]
  · by_cases h : r.social_media = [] <;>
      simp +decide [to_elasticsearch_doc, fieldKey, CompanyRecord.fieldGet,
        docLookup_append, docLookup_ite_singleton_ne, docLookup_ite_nil_ne,
        docLookup_ite_singleton_self, docLookup_ite_nil_self, docLookup,
        ite_not, h]
  · by_cases h : r.addresses = [] <;>
      simp +decide [to_elasticsearch_doc, fieldKey, CompanyRecord.fieldGet,
        docLookup_append, docLookup_ite_singleton_ne, docLookup_ite_nil_ne,
        docLookup_ite_singleton_self, docLookup_ite_nil_self, docLookup,
        ite_not, h]
  · by_cases h : r.page_types = [] <;>
      simp +decide [to_elasticsearch_doc, fieldKey, CompanyRecord.fieldGet,
        docLookup_append, docLookup_ite_singleton_ne, docLookup_ite_nil_ne,
        docLookup_ite_singleton_self, docLookup_ite_nil_self, docLookup,
        ite_not, h]
  · by_cases h : r.urls = [] <;>
      simp +decide [to_elasticsearch_doc, fieldKey, CompanyRecord.fieldGet,
        docLookup_append, docLookup_ite_singleton_ne, docLookup_ite_nil_ne,
        docLookup_ite_singleton_self, docLookup_ite_nil_self, docLookup,
        ite_not, h]

/-- The domain key is always present in a projected document. -/
lemma docLookup_to_es_domain (r : CompanyRecord) :
    docLookup (to_elasticsearch_doc r) "domain".toList =
      some (DocValue.str r.domain) := by
  simp [to_elasticsearch_doc, docLookup_append, docLookup]


/-- C4. `to_elasticsearch_doc` always contains the domain key, contains a
field key exactly when that field is non-empty, and a present field carries
its full value list. -/
theorem to_elasticsearch_doc_spec (r : CompanyRecord) :
    docLookup (to_elasticsearch_doc r) "domain".toList =
      some (DocValue.str r.domain)
    ∧ ∀ f : RecField, docLookup (to_elasticsearch_doc r) (fieldKey f) =
        if r.fieldGet f = [] then none
        else some (DocValue.strList (r.fieldGet f)) :=
  ⟨docLookup_to_es_domain r, docLookup_to_es_field r⟩

/-- Reading a field of a projected document back through the importer's
truthy `get` recovers the field. -/
lemma docGetList_to_es (r : CompanyRecord) (f : RecField) :
    docGetList (to_elasticsearch_doc r) (fieldKey f) = r.fieldGet f := by
  rw [docGetList, docLookup_to_es_field]
  by_cases h : r.fieldGet f = [] <;> simp [h]

/-- Two records with equal domain and equal projected fields are equal. -/
lemma CompanyRecord.ext_fieldGet (r1 r2 : CompanyRecord)
    (hd : r1.domain = r2.domain) (hf : ∀ f, r1.fieldGet f = r2.fieldGet f) :
    r1 = r2 := by
  obtain ⟨d1, a1, b1, c1, e1, p1, u1⟩ := r1
  obtain ⟨d2, a2, b2, c2, e2, p2, u2⟩ := r2
  have h1 := hf RecField.names
  have h2 := hf RecField.phonesF
  have h3 := hf RecField.socialMedia
  have h4 := hf RecField.addressesF
  have h5 := hf RecField.pageTypes
  have h6 := hf RecField.urlsF
  simp only [CompanyRecord.fieldGet] at h1 h2 h3 h4 h5 h6
  simp_all

/-- The reconstructed record keeps the supplied domain. -/
lemma doc_to_company_record_domain (doc : EsDoc) (dom : PyStr) :
    (doc_to_company_record doc dom).domain = dom := by
  simp [doc_to_company_record, add_company_names, add_phones,
    add_social_media, add_addresses, add_page_types, add_urls,
    mkCompanyRecord, apply_ite CompanyRecord.domain]

/-- Each field of the reconstructed record, in terms of the document. -/
lemma doc_to_company_record_fieldGet (doc : EsDoc) (dom : PyStr)
    (f : RecField) :
    (doc_to_company_record doc dom).fieldGet f =
      if docGetList doc (fieldKey f) = [] then []
      else makeUniqueList ((docGetList doc (fieldKey f)).map some) := by
  cases f <;>
    simp [doc_to_company_record, CompanyRecord.fieldGet, fieldKey,
      add_company_names, add_phones, add_social_media, add_addresses,
      add_page_types, add_urls, mkCompanyRecord, makeUniqueList_nil,
      addFieldList_nil_left, ite_not,
      apply_ite CompanyRecord.company_names, apply_ite CompanyRecord.phones,
      apply_ite CompanyRecord.social_media,
      apply_ite CompanyRecord.addresses, apply_ite CompanyRecord.page_types,
      apply_ite CompanyRecord.urls]

/-- C5. Round-trip through the storage projection is the identity on a
record satisfying the dataclass invariant: reconstructing from
`to_elasticsearch_doc r` with the record domain returns `r`, an absent key
reading back as the empty collection. -/
theorem doc_roundtrip (r : CompanyRecord) (h : RecordWF r) :
    doc_to_company_record (to_elasticsearch_doc r) r.domain = r := by
  refine CompanyRecord.ext_fieldGet _ _ (doc_to_company_record_domain _ _)
    (fun f => ?_)
  rw [doc_to_company_record_fieldGet, docGetList_to_es]
  by_cases hf : r.fieldGet f = []
  · simp [hf]
  · simp [hf, makeUniqueList_of_cleanList (h f)]

/-- Witness for C5 at a concrete record with empty and non-empty fields. -/
theorem doc_roundtrip_witness :
    doc_to_company_record (to_elasticsearch_doc recA) recA.domain = recA :=
  doc_roundtrip recA (by decide)


lemma cleanList_addFieldList {cur : List PyStr} (h : CleanList cur)
    (new : List (Option PyStr)) : CleanList (addFieldList cur new) := by
  unfold addFieldList
  split
  · exact h
  · exact cleanList_makeUniqueList _

lemma RecordWF_mk (d : PyStr) (a b c e f g : List (Option PyStr)) :
    RecordWF (mkCompanyRecord d a b c e f g) := by
  intro fld
  cases fld <;> exact cleanList_makeUniqueList _

lemma RecordWF_add_company_names {r : CompanyRecord} (h : RecordWF r)
    (v : List (Option PyStr)) : RecordWF (add_company_names r v) := by
  intro fld
  cases fld
  · exact cleanList_addFieldList (h RecField.names) v
  · exact h RecField.phonesF
  · exact h RecField.socialMedia
  · exact h RecField.addressesF
  · exact h RecField.pageTypes
  · exact h RecField.urlsF

lemma RecordWF_add_phones {r : CompanyRecord} (h : RecordWF r)
    (v : List (Option PyStr)) : RecordWF (add_phones r v) := by
  intro fld
  cases fld
  · exact h RecField.names
  · exact cleanList_addFieldList (h RecField.phonesF) v
  · exact h RecField.socialMedia
  · exact h RecField.addressesF
  · exact h RecField.pageTypes
  · exact h RecField.urlsF

lemma RecordWF_add_social_media {r : CompanyRecord} (h : RecordWF r)
    (v : List (Option PyStr)) : RecordWF (add_social_media r v) := by
  intro fld
  cases fld
  · exact h RecField.names
  · exact h RecField.phonesF
  · exact cleanList_addFieldList (h RecField.socialMedia) v
  · exact h RecField.addressesF
  · exact h RecField.pageTypes
  · exact h RecField.urlsF

lemma RecordWF_add_addresses {r : CompanyRecord} (h : RecordWF r)
    (v : List (Option PyStr)) : RecordWF (add_addresses r v) := by
  intro fld
  cases fld
  · exact h RecField.names
  · exact h RecField.phonesF
  · exact h RecField.socialMedia
  · exact cleanList_addFieldList (h RecField.addressesF) v
  · exact h RecField.pageTypes
  · exact h RecField.urlsF

lemma RecordWF_add_page_types {r : CompanyRecord} (h : RecordWF r)
    (v : List (Option PyStr)) : RecordWF (add_page_types r v) := by
  intro fld
  cases fld
  · exact h RecField.names
  · exact h RecField.phonesF
  · exact h RecField.socialMedia
  · exact h RecField.addressesF
  · exact cleanList_addFieldList (h RecField.pageTypes) v
  · exact h RecField.urlsF

lemma RecordWF_add_urls {r : CompanyRecord} (h : RecordWF r)
    (v : List (Option PyStr)) : RecordWF (add_urls r v) := by
  intro fld
  cases fld
  · exact h RecField.names
  · exact h RecField.phonesF
  · exact h RecField.socialMedia
  · exact h RecField.addressesF
  · exact h RecField.pageTypes
  · exact cleanList_addFieldList (h RecField.urlsF) v

/-- A successful merge implies the domains were equal. -/
lemma merge_with_domains_eq {a b m : CompanyRecord}
    (h : merge_with a b = Except.ok m) : a.domain = b.domain := by
  by_contra hne
  rw [merge_with, if_pos hne] at h
  exact Except.noConfusion h

/-- A successful merge yields a record satisfying the invariant. -/
lemma RecordWF_of_merge {a b m : CompanyRecord}
    (h : merge_with a b = Except.ok m) : RecordWF m := by
  obtain ⟨m2, hm2, _, hf⟩ := merge_with_fieldGet a b (merge_with_domains_eq h)
  rw [hm2] at h
  obtain rfl : m2 = m := Except.ok.inj h
  intro f
  rw [hf f]
  exact cleanList_makeUniqueList _

/-- Field membership in a merge of two invariant-satisfying records is the
union of the memberships. -/
lemma mem_merge_fieldGet {a b m : CompanyRecord} (ha : RecordWF a)
    (hb : RecordWF b) (h : merge_with a b = Except.ok m) (f : RecField)
    (x : PyStr) :
    x ∈ m.fieldGet f ↔ x ∈ a.fieldGet f ∨ x ∈ b.fieldGet f := by
  obtain ⟨m2, hm2, _, hf⟩ := merge_with_fieldGet a b (merge_with_domains_eq h)
  rw [hm2] at h
  obtain rfl : m2 = m := Except.ok.inj h
  rw [hf f, mem_makeUniqueList]
  constructor
  · rintro ⟨o, ho, hc⟩
    simp only [List.mem_map, List.mem_append] at ho
    obtain ⟨s, hs, rfl⟩ := ho
    rcases hs with hs | hs
    · rw [cleanItem_of_isClean ((ha f).2 s hs)] at hc
      exact Or.inl ((Option.some.inj hc) ▸ hs)
    · rw [cleanItem_of_isClean ((hb f).2 s hs)] at hc
      exact Or.inr ((Option.some.inj hc) ▸ hs)
  · rintro (hx | hx)
    · refine ⟨some x, ?_, cleanItem_of_isClean ((ha f).2 x hx)⟩
      simp only [List.mem_map, List.mem_append]
      exact ⟨x, Or.inl hx, rfl⟩
    · refine ⟨some x, ?_, cleanItem_of_isClean ((hb f).2 x hx)⟩
      simp only [List.mem_map, List.mem_append]
      exact ⟨x, Or.inr hx, rfl⟩

/-- A raw record with a usable domain constructs successfully, with that
domain and a record satisfying the invariant. -/
lemma from_json_record_ok (rec : JsonRecord) (d : PyStr)
    (h : getTruthy rec.domain = some d) :
    ∃ cr, from_json_record rec = Except.ok cr ∧ cr.domain = d ∧
      RecordWF cr := by
  simp only [from_json_record, h]
  refine ⟨_, rfl, ?_, ?_⟩
  · repeat' split
    all_goals
      simp [add_phones, add_social_media, add_addresses, add_page_types,
        add_urls, mkCompanyRecord]
  · repeat' split
    all_goals
      repeat
        first
        | apply RecordWF_add_urls
        | apply RecordWF_add_page_types
        | apply RecordWF_add_addresses
        | apply RecordWF_add_social_media
        | apply RecordWF_add_phones
        | exact RecordWF_mk _ _ _ _ _ _ _

lemma lookupDomain_eq_none_iff (m : List (PyStr × CompanyRecord))
    (d : PyStr) :
    lookupDomain m d = none ↔ d ∉ m.map Prod.fst := by
  induction m with
  | nil => simp [lookupDomain]
  | cons p rest ih =>
    obtain ⟨k, v⟩ := p
    by_cases h : k = d
    · subst h; simp [lookupDomain]
    · simp [lookupDomain, h, ih, Ne.symm h]

lemma mem_of_lookupDomain {m : List (PyStr × CompanyRecord)} {d : PyStr}
    {r : CompanyRecord} (h : lookupDomain m d = some r) : (d, r) ∈ m := by
  induction m with
  | nil => simp [lookupDomain] at h
  | cons p rest ih =>
    obtain ⟨k, v⟩ := p
    by_cases hk : k = d
    · subst hk
      have h2 : v = r := by simpa [lookupDomain] using h
      subst h2
      exact List.mem_cons_self _ _
    · simp only [lookupDomain, if_neg hk] at h
      exact List.mem_cons_of_mem _ (ih h)

lemma lookupDomain_of_mem_nodup {m : List (PyStr × CompanyRecord)}
    {d : PyStr} {r : CompanyRecord} (hn : (m.map Prod.fst).Nodup)
    (h : (d, r) ∈ m) : lookupDomain m d = some r := by
  induction m with
  | nil => cases h
  | cons p rest ih =>
    obtain ⟨k, v⟩ := p
    have hn2 : k ∉ rest.map Prod.fst ∧ (rest.map Prod.fst).Nodup := by
      rw [List.map_cons, List.nodup_cons] at hn
      exact hn
    rcases List.mem_cons.mp h with heq | hmem
    · cases heq
      simp [lookupDomain]
    · have hk : k ≠ d := by
        intro hkd
        subst hkd
        exact hn2.1 (List.mem_map.mpr ⟨(k, r), hmem, rfl⟩)
      simp only [lookupDomain, if_neg hk]
      exact ih hn2.2 hmem

lemma lookupDomain_append (m1 m2 : List (PyStr × CompanyRecord))
    (d : PyStr) :
    lookupDomain (m1 ++ m2) d =
      match lookupDomain m1 d with
      | some v => some v
      | none => lookupDomain m2 d := by
  induction m1 with
  | nil => simp [lookupDomain]
  | cons p rest ih =>
    obtain ⟨k, v⟩ := p
    by_cases h : k = d <;> simp [lookupDomain, h, ih]

lemma map_fst_updateDomain (m : List (PyStr × CompanyRecord)) (d : PyStr)
    (r : CompanyRecord) :
    (updateDomain m d r).map Prod.fst = m.map Prod.fst := by
  induction m with
  | nil => rfl
  | cons p rest ih =>
    obtain ⟨k, v⟩ := p
    by_cases h : k = d <;> simp [updateDomain, h, ih]

lemma lookupDomain_updateDomain_ne (m : List (PyStr × CompanyRecord))
    {d2 d : PyStr} (r : CompanyRecord) (h : d2 ≠ d) :
    lookupDomain (updateDomain m d r) d2 = lookupDomain m d2 := by
  induction m with
  | nil => rfl
  | cons p rest ih =>
    obtain ⟨k, v⟩ := p
    by_cases hk : k = d
    · subst hk
      have hne : ¬ (k = d2) := fun hx => h hx.symm
      simp [updateDomain, lookupDomain, hne]
    · by_cases hk2 : k = d2
      · subst hk2
        simp [updateDomain, lookupDomain, hk]
      · simp [updateDomain, lookupDomain, hk, hk2, ih]

lemma lookupDomain_updateDomain_self {m : List (PyStr × CompanyRecord)}
    {d : PyStr} {v : CompanyRecord} (r : CompanyRecord)
    (h : lookupDomain m d = some v) :
    lookupDomain (updateDomain m d r) d = some r := by
  induction m with
  | nil => simp [lookupDomain] at h
  | cons p rest ih =>
    obtain ⟨k, w⟩ := p
    by_cases hk : k = d
    · subst hk
      simp [updateDomain, lookupDomain]
    · simp only [lookupDomain, if_neg hk] at h
      simp only [updateDomain, if_neg hk, lookupDomain, if_neg hk]
      exact ih h

lemma exists_mem_append_singleton {α : Type} (P : α → Prop) (l : List α)
    (a : α) :
    (∃ y ∈ l ++ [a], P y) ↔ (∃ y ∈ l, P y) ∨ P a := by
  constructor
  · rintro ⟨y, hy, hp⟩
    rcases List.mem_append.mp hy with h | h
    · exact Or.inl ⟨y, h, hp⟩
    · rcases List.mem_singleton.mp h with rfl
      exact Or.inr hp
  · rintro (⟨y, hy, hp⟩ | hp)
    · exact ⟨y, List.mem_append_left _ hy, hp⟩
    · exact ⟨a, List.mem_append_right _ (List.mem_singleton_self a), hp⟩

/-- Dropping the records without a usable domain does not change the
aggregation. -/
lemma aggregateGo_filter (records : List JsonRecord) :
    ∀ acc, aggregateGo
      (records.filter (fun rec => (getTruthy rec.domain).isSome)) acc =
      aggregateGo records acc := by
  induction records with
  | nil => intro acc; rfl
  | cons rec rest ih =>
    intro acc
    cases hdom : getTruthy rec.domain with
    | none =>
      simp only [List.filter_cons, hdom, Option.isSome_none,
        Bool.false_eq_true, if_false, aggregateGo]
      exact ih acc
    | some d =>
      simp only [List.filter_cons, hdom, Option.isSome_some, if_true,
        aggregateGo]
      cases hjr : from_json_record rec with
      | error e => rfl
      | ok cr =>
        dsimp only
        cases hlook : lookupDomain acc d with
        | none => exact ih _
        | some existing =>
          dsimp only
          cases hm : merge_with existing cr with
          | error e => rfl
          | ok merged => exact ih _


/-- Invariant-carrying run of the aggregation loop: starting from a mapping
that faithfully summarizes `past`, the loop consumes `rest` without error and
the final mapping faithfully summarizes `past ++ rest` (unique keys, one key
per distinct usable domain, every stored record keyed by its own domain with
field contents the union of its domain records' contributions). -/
lemma aggregateGo_spec (rest : List JsonRecord) :
    ∀ (past : List JsonRecord) (m : List (PyStr × CompanyRecord)),
      (m.map Prod.fst).Nodup →
      (∀ d, d ∈ m.map Prod.fst ↔
        ∃ rec ∈ past, getTruthy rec.domain = some d) →
      (∀ d r, lookupDomain m d = some r → r.domain = d ∧ RecordWF r ∧
        (∀ f x, x ∈ r.fieldGet f ↔
          ∃ rec ∈ past, getTruthy rec.domain = some d ∧
            ∃ cr, from_json_record rec = Except.ok cr ∧
              x ∈ cr.fieldGet f)) →
      ∃ m2, aggregateGo rest m = Except.ok m2 ∧
        (m2.map Prod.fst).Nodup ∧
        (∀ d, d ∈ m2.map Prod.fst ↔
          ∃ rec ∈ past ++ rest, getTruthy rec.domain = some d) ∧
        (∀ d r, lookupDomain m2 d = some r → r.domain = d ∧ RecordWF r ∧
          (∀ f x, x ∈ r.fieldGet f ↔
            ∃ rec ∈ past ++ rest, getTruthy rec.domain = some d ∧
              ∃ cr, from_json_record rec = Except.ok cr ∧
                x ∈ cr.fieldGet f)) := by
  induction rest with
  | nil =>
    intro past m hn hk hv
    exact ⟨m, rfl, hn, by simpa using hk, by simpa using hv⟩
  | cons rec rest ih =>
    intro past m hn hk hv
    cases hdom : getTruthy rec.domain with
    | none =>
      have hk2 : ∀ d, d ∈ m.map Prod.fst ↔
          ∃ rec2 ∈ past ++ [rec], getTruthy rec2.domain = some d := by
        intro d
        rw [hk d, exists_mem_append_singleton]
        constructor
        · exact Or.inl
        · rintro (h2 | h2)
          · exact h2
          · rw [hdom] at h2
            cases h2
      have hv2 : ∀ d r, lookupDomain m d = some r → r.domain = d ∧
          RecordWF r ∧
          (∀ f x, x ∈ r.fieldGet f ↔
            ∃ rec2 ∈ past ++ [rec], getTruthy rec2.domain = some d ∧
              ∃ cr, from_json_record rec2 = Except.ok cr ∧
                x ∈ cr.fieldGet f) := by
        intro d r hlr
        obtain ⟨h1, h2, h3⟩ := hv d r hlr
        refine ⟨h1, h2, fun f x => ?_⟩
        rw [h3 f x, exists_mem_append_singleton]
        constructor
        · exact Or.inl
        · rintro (h4 | h4)
          · exact h4
          · rw [hdom] at h4
            cases h4.1
      obtain ⟨m2, h1, h2, h3, h4⟩ := ih (past ++ [rec]) m hn hk2 hv2
      rw [List.append_assoc, List.singleton_append] at h3 h4
      refine ⟨m2, ?_, h2, h3, h4⟩
      simp only [aggregateGo, hdom]
      exact h1
    | some d0 =>
      obtain ⟨cr, hcr, hcrd, hcrwf⟩ := from_json_record_ok rec d0 hdom
      cases hlook : lookupDomain m d0 with
      | none =>
        have hd0 : d0 ∉ m.map Prod.fst :=
          (lookupDomain_eq_none_iff m d0).mp hlook
        have hkeys : (m ++ [(d0, cr)]).map Prod.fst =
            m.map Prod.fst ++ [d0] := by simp
        have hn2 : ((m ++ [(d0, cr)]).map Prod.fst).Nodup := by
          rw [hkeys, List.nodup_append]
          refine ⟨hn, List.nodup_singleton _, ?_⟩
          intro x hx hx2
          rw [List.mem_singleton] at hx2
          subst hx2
          exact hd0 hx
        have hk2 : ∀ d, d ∈ (m ++ [(d0, cr)]).map Prod.fst ↔
            ∃ rec2 ∈ past ++ [rec], getTruthy rec2.domain = some d := by
          intro d
          rw [hkeys, List.mem_append, List.mem_singleton, hk d,
            exists_mem_append_singleton]
          constructor
          · rintro (h2 | rfl)
            · exact Or.inl h2
            · exact Or.inr hdom
          · rintro (h2 | h2)
            · exact Or.inl h2
            · right
              rw [hdom] at h2
              exact (Option.some.inj h2).symm
        have hv2 : ∀ d r, lookupDomain (m ++ [(d0, cr)]) d = some r →
            r.domain = d ∧ RecordWF r ∧
            (∀ f x, x ∈ r.fieldGet f ↔
              ∃ rec2 ∈ past ++ [rec], getTruthy rec2.domain = some d ∧
                ∃ cr2, from_json_record rec2 = Except.ok cr2 ∧
                  x ∈ cr2.fieldGet f) := by
          intro d r hlr
          rw [lookupDomain_append] at hlr
          cases hl1 : lookupDomain m d with
          | some r1 =>
            rw [hl1] at hlr
            dsimp only at hlr
            obtain rfl : r1 = r := Option.some.inj hlr
            have hdd0 : d ≠ d0 := by
              intro hx
              subst hx
              rw [hlook] at hl1
              exact Option.noConfusion hl1
            obtain ⟨h1, h2, h3⟩ := hv d r1 hl1
            refine ⟨h1, h2, fun f x => ?_⟩
            rw [h3 f x, exists_mem_append_singleton]
            constructor
            · exact Or.inl
            · rintro (h4 | h4)
              · exact h4
              · exfalso
                rw [hdom] at h4
                exact hdd0 (Option.some.inj h4.1).symm
          | none =>
            rw [hl1] at hlr
            dsimp only at hlr
            have hpair : d0 = d ∧ cr = r := by
              by_cases hx : d0 = d
              · simp only [lookupDomain, if_pos hx, Option.some.injEq]
                  at hlr
                exact ⟨hx, hlr⟩
              · simp only [lookupDomain, if_neg hx] at hlr
                exact Option.noConfusion hlr
            obtain ⟨rfl, rfl⟩ := hpair
            refine ⟨hcrd, hcrwf, fun f x => ?_⟩
            rw [exists_mem_append_singleton]
            constructor
            · intro hx
              exact Or.inr ⟨hdom, cr, hcr, hx⟩
            · rintro (⟨rec2, hrec2, hg, _⟩ | ⟨_, cr2, hcr2, hx⟩)
              · exact absurd ((hk d0).mpr ⟨rec2, hrec2, hg⟩) hd0
              · rw [hcr] at hcr2
                obtain rfl : cr = cr2 := Except.ok.inj hcr2
                exact hx
        obtain ⟨m2, h1, h2, h3, h4⟩ :=
          ih (past ++ [rec]) (m ++ [(d0, cr)]) hn2 hk2 hv2
        rw [List.append_assoc, List.singleton_append] at h3 h4
        refine ⟨m2, ?_, h2, h3, h4⟩
        simp only [aggregateGo, hdom, hcr, hlook]
        exact h1
      | some existing =>
        obtain ⟨hexd, hexwf, hexmem⟩ := hv d0 existing hlook
        have hdd : existing.domain = cr.domain := by rw [hexd, hcrd]
        obtain ⟨merged, hmerge, hmd, hmf⟩ :=
          merge_with_fieldGet existing cr hdd
        have hmwf : RecordWF merged := RecordWF_of_merge hmerge
        have hmmem := mem_merge_fieldGet hexwf hcrwf hmerge
        have hd0mem : d0 ∈ m.map Prod.fst :=
          List.mem_map.mpr ⟨(d0, existing), mem_of_lookupDomain hlook, rfl⟩
        have hn2 : ((updateDomain m d0 merged).map Prod.fst).Nodup := by
          rw [map_fst_updateDomain]
          exact hn
        have hk2 : ∀ d, d ∈ (updateDomain m d0 merged).map Prod.fst ↔
            ∃ rec2 ∈ past ++ [rec], getTruthy rec2.domain = some d := by
          intro d
          rw [map_fst_updateDomain, hk d, exists_mem_append_singleton]
          constructor
          · exact Or.inl
          · rintro (h2 | h2)
            · exact h2
            · rw [hdom] at h2
              obtain rfl : d0 = d := Option.some.inj h2
              exact (hk d0).mp hd0mem
        have hv2 : ∀ d r, lookupDomain (updateDomain m d0 merged) d =
              some r →
            r.domain = d ∧ RecordWF r ∧
            (∀ f x, x ∈ r.fieldGet f ↔
              ∃ rec2 ∈ past ++ [rec], getTruthy rec2.domain = some d ∧
                ∃ cr2, from_json_record rec2 = Except.ok cr2 ∧
                  x ∈ cr2.fieldGet f) := by
          intro d r hlr
          by_cases hdd0 : d = d0
          · subst hdd0
            rw [lookupDomain_updateDomain_self merged hlook] at hlr
            obtain rfl : merged = r := Option.some.inj hlr
            refine ⟨by rw [hmd, hexd], hmwf, fun f x => ?_⟩
            rw [hmmem f x, exists_mem_append_singleton]
            constructor
            · rintro (hx | hx)
              · exact Or.inl ((hexmem f x).mp hx)
              · exact Or.inr ⟨hdom, cr, hcr, hx⟩
            · rintro (hpast | ⟨_, cr2, hcr2, hx⟩)
              · exact Or.inl ((hexmem f x).mpr hpast)
              · right
                rw [hcr] at hcr2
                obtain rfl : cr = cr2 := Except.ok.inj hcr2
                exact hx
          · rw [lookupDomain_updateDomain_ne m merged hdd0] at hlr
            obtain ⟨h1, h2, h3⟩ := hv d r hlr
            refine ⟨h1, h2, fun f x => ?_⟩
            rw [h3 f x, exists_mem_append_singleton]
            constructor
            · exact Or.inl
            · rintro (h4 | h4)
              · exact h4
              · exfalso
                rw [hdom] at h4
                exact hdd0 (Option.some.inj h4.1).symm
        obtain ⟨m2, h1, h2, h3, h4⟩ :=
          ih (past ++ [rec]) (updateDomain m d0 merged) hn2 hk2 hv2
        rw [List.append_assoc, List.singleton_append] at h3 h4
        refine ⟨m2, ?_, h2, h3, h4⟩
        simp only [aggregateGo, hdom, hcr, hlook, hmerge]
        exact h1

/-- C6. Aggregation skips records without a usable domain without raising
and without affecting the result, and returns a mapping with exactly one
record per distinct usable domain whose per-field value sets are the unions
of the contributions of that domain's raw records. -/
theorem aggregate_spec (records : List JsonRecord) :
    ∃ m, aggregate_json_records_by_domain records = Except.ok m
      ∧ aggregate_json_records_by_domain
          (records.filter (fun rec => (getTruthy rec.domain).isSome)) =
          Except.ok m
      ∧ (m.map Prod.fst).Nodup
      ∧ (∀ d, d ∈ m.map Prod.fst ↔
          ∃ rec ∈ records, getTruthy rec.domain = some d)
      ∧ ∀ d r, (d, r) ∈ m → r.domain = d ∧
          ∀ f x, x ∈ r.fieldGet f ↔
            ∃ rec ∈ records, getTruthy rec.domain = some d ∧
              ∃ cr, from_json_record rec = Except.ok cr ∧
                x ∈ cr.fieldGet f := by
  obtain ⟨m, h1, h2, h3, h4⟩ := aggregateGo_spec records [] []
    (by simp) (by simp) (by intro d r hlr; exact Option.noConfusion hlr)
  rw [List.nil_append] at h3 h4
  refine ⟨m, h1, ?_, h2, h3, fun d r hmem => ?_⟩
  · rw [aggregate_json_records_by_domain, aggregateGo_filter]
    exact h1
  · obtain ⟨hd, _, hm⟩ := h4 d r (lookupDomain_of_mem_nodup h2 hmem)
    exact ⟨hd, hm⟩

/-- Witness for C6: three raw records, the middle one with an unusable
domain, aggregate to the single expected domain record. -/
theorem aggregate_spec_witness :
    ∃ m, aggregate_json_records_by_domain
        [jsonMulti1, jsonNoDomain, jsonMulti2] = Except.ok m
      ∧ ("multi.com".toList,
          CompanyRecord.mk "multi.com".toList []
            ["+1-555-1001".toList, "+1-555-1002".toList]
            ["t.co/multi".toList, "fb.com/multi".toList] [] [] []) ∈ m
      ∧ (CompanyRecord.mk "multi.com".toList []
            ["+1-555-1001".toList, "+1-555-1002".toList]
            ["t.co/multi".toList, "fb.com/multi".toList] [] [] []).domain =
          "multi.com".toList := by
  obtain ⟨m, h1, _, _, _, h5⟩ :=
    aggregate_spec [jsonMulti1, jsonNoDomain, jsonMulti2]
  have h6 : aggregate_json_records_by_domain
      [jsonMulti1, jsonNoDomain, jsonMulti2] = Except.ok
        [("multi.com".toList,
          CompanyRecord.mk "multi.com".toList []
            ["+1-555-1001".toList, "+1-555-1002".toList]
            ["t.co/multi".toList, "fb.com/multi".toList] [] [] [])] := by
    rfl
  obtain rfl : m = _ := Except.ok.inj (h1.symm.trans h6)
  have hmem : ("multi.com".toList,
      CompanyRecord.mk "multi.com".toList []
        ["+1-555-1001".toList, "+1-555-1002".toList]
        ["t.co/multi".toList, "fb.com/multi".toList] [] [] []) ∈
      [("multi.com".toList,
        CompanyRecord.mk "multi.com".toList []
          ["+1-555-1001".toList, "+1-555-1002".toList]
          ["t.co/multi".toList, "fb.com/multi".toList] [] [] [])] :=
    List.mem_singleton_self _
  exact ⟨_, h6, hmem, (h5 _ _ hmem).1⟩


/-- A truthy read never returns the empty string. -/
lemma getTruthy_some_ne {o : Option PyStr} {s : PyStr}
    (h : getTruthy o = some s) : s ≠ [] := by
  cases o with
  | none => simp [getTruthy] at h
  | some s2 =>
    by_cases h2 : s2 = []
    · simp [getTruthy, h2] at h
    · simp only [getTruthy, if_neg h2, Option.some.injEq] at h
      subst h
      exact h2

/-- `str.split` never returns an empty list of segments. -/
lemma pySplitGo_ne_nil (sep : Char) (s : List Char) (cur : PyStr) :
    pySplitGo sep s cur ≠ [] := by
  induction s generalizing cur with
  | nil => simp [pySplitGo]
  | cons c rest ih => by_cases h : c = sep <;> simp [pySplitGo, h, ih]

lemma pySplit_ne_nil (s : PyStr) (sep : Char) : pySplit s sep ≠ [] :=
  pySplitGo_ne_nil sep s []

lemma add_company_names_nil (r : CompanyRecord) :
    add_company_names r [] = r := rfl

/-- Adding a non-empty batch onto an already-normalized field collapses into
a single normalization of the concatenated raw inputs. -/
lemma addFieldList_makeUniqueList (A B : List (Option PyStr))
    (hB : B ≠ []) :
    addFieldList (makeUniqueList A) B = makeUniqueList (A ++ B) := by
  rw [addFieldList, if_neg hB, makeUniqueList_absorb]

/-- `from_csv_row` fails with the missing-domain error exactly when the
domain column is absent or empty. -/
lemma from_csv_row_error_iff (row : CsvRow) :
    from_csv_row row = Except.error PyError.missingDomain ↔
      (row.domain = none ∨ row.domain = some []) := by
  cases hd : row.domain with
  | none => simp [from_csv_row, getTruthy, hd]
  | some s =>
    by_cases hs : s = []
    · subst hs
      simp [from_csv_row, getTruthy, hd]
    · simp [from_csv_row, getTruthy, hd, hs]

/-- `from_csv_row` on a usable domain: the record's `company_names` is the
normalization of the consolidated name sources. -/
lemma from_csv_row_ok (row : CsvRow) (d : PyStr)
    (h : getTruthy row.domain = some d) :
    ∃ rec, from_csv_row row = Except.ok rec ∧ rec.domain = d ∧
      rec.company_names = makeUniqueList ((csvNameSources row).map some) := by
  simp only [from_csv_row, h]
  cases hc : getTruthy row.company_commercial_name <;>
    cases hl : getTruthy row.company_legal_name <;>
      cases hp : getTruthy row.company_all_available_names <;>
        (try have hps := getTruthy_some_ne hp) <;>
        refine ⟨_, rfl, ?_, ?_⟩ <;>
        simp [*, csvNameSources, add_company_names,
          add_company_names_from_pipe_separated, mkCompanyRecord,
          makeUniqueList_nil, addFieldList_makeUniqueList,
          addFieldList_nil_left, List.map_eq_nil_iff, pySplit_ne_nil,
          List.map_append, add_company_names_nil]


/-- C7 counterexample: the scenario-A row yields four distinct company
names, so `company_names` is not "exactly 3 distinct values". -/
theorem from_csv_row_scenarioA_not_three :
    from_csv_row scenarioRowA = Except.ok
      (CompanyRecord.mk "example.com".toList
        ["Example Corp".toList, "Example Corporation Inc".toList,
          "Example Inc".toList, "Example Company".toList] [] [] [] [] [])
    ∧ ["Example Corp".toList, "Example Corporation Inc".toList,
        "Example Inc".toList, "Example Company".toList].Nodup
    ∧ ["Example Corp".toList, "Example Corporation Inc".toList,
        "Example Inc".toList, "Example Company".toList].length ≠ 3 :=
  ⟨by rfl, by decide, by decide⟩

/-- C7 (amended). `from_csv_row` fails with the missing-domain error exactly
when the domain is absent or empty; otherwise `company_names` consolidates
the commercial name, the legal name and the stripped pipe-split segments;
the scenario-A row yields exactly the four distinct values, with
"Example Corp" deduplicated against itself once. -/
theorem from_csv_row_spec :
    (∀ row, from_csv_row row = Except.error PyError.missingDomain ↔
      (row.domain = none ∨ row.domain = some []))
    ∧ (∀ row d, getTruthy row.domain = some d →
        ∃ rec, from_csv_row row = Except.ok rec ∧ rec.domain = d ∧
          rec.company_names =
            makeUniqueList ((csvNameSources row).map some))
    ∧ from_csv_row scenarioRowA = Except.ok
        (CompanyRecord.mk "example.com".toList
          ["Example Corp".toList, "Example Corporation Inc".toList,
            "Example Inc".toList, "Example Company".toList] [] [] [] [] [])
    ∧ ["Example Corp".toList, "Example Corporation Inc".toList,
        "Example Inc".toList, "Example Company".toList].Nodup :=
  ⟨from_csv_row_error_iff, from_csv_row_ok, by rfl, by decide⟩

/-- Witness for C7 at an absent-domain row and at the scenario-A row. -/
theorem from_csv_row_spec_witness :
    from_csv_row (CsvRow.mk none none none none) =
        Except.error PyError.missingDomain
    ∧ ∃ rec, from_csv_row scenarioRowA = Except.ok rec ∧
        rec.domain = "example.com".toList ∧
        rec.company_names =
          makeUniqueList ((csvNameSources scenarioRowA).map some) :=
  ⟨(from_csv_row_spec.1 (CsvRow.mk none none none none)).mpr (Or.inl rfl),
    from_csv_row_spec.2.1 scenarioRowA "example.com".toList (by decide)⟩

/-- The tokenization loop keeps exactly the capital-letter runs of length at
least 3, in order. -/
lemma splitCapsGo_eq_filter (chars : List Char) (cur : PyStr) :
    splitCapsGo chars cur =
      (capitalRunsGo chars cur).filter (fun p => decide (3 ≤ p.length)) := by
  induction chars generalizing cur with
  | nil =>
    by_cases h : cur = []
    · simp [splitCapsGo, capitalRunsGo, h]
    · by_cases h3 : 3 ≤ cur.length <;>
        simp [splitCapsGo, capitalRunsGo, h, h3]
  | cons c rest ih =>
    by_cases hu : c.isUpper
    · by_cases h : cur = []
      · subst h
        simp [splitCapsGo, capitalRunsGo, hu, ih]
      · by_cases h3 : 3 ≤ cur.length <;>
          simp [splitCapsGo, capitalRunsGo, hu, h, h3, ih,
            List.filter_append]
    · simp [splitCapsGo, capitalRunsGo, hu, ih]

/-- C8. The query builder's name tokenization is the split of the name at
capital-letter boundaries with only runs of length at least 3 retained; a
non-empty tokenization is re-joined with single spaces into the medium-boost
match clause for that name, an empty tokenization adds no medium-boost match
clause, and "AcmeWidgets" tokenizes to "Acme Widgets". -/
theorem build_search_query_tokenization (name : PyStr) :
    splitCaps name =
      (capitalRuns name).filter (fun p => decide (3 ≤ p.length))
    ∧ (splitCaps name ≠ [] →
        Clause.matchFuzzy "company_names".toList
          (joinSpaces (splitCaps name)) MEDIUM_BOOST ∈ clausesForName name)
    ∧ (splitCaps name = [] →
        ∀ q, Clause.matchFuzzy "company_names".toList q MEDIUM_BOOST ∉
          clausesForName name)
    ∧ splitCaps "AcmeWidgets".toList = ["Acme".toList, "Widgets".toList] := by
  refine ⟨splitCapsGo_eq_filter name [], fun h => ?_, fun h q => ?_, by rfl⟩
  · simp [clausesForName, h]
  · simp [clausesForName, h, MEDIUM_BOOST, HIGHEST_BOOST]

/-- Witness for C8: "AcmeWidgets" receives the medium-boost clause on
"Acme Widgets", a short name receives none. -/
theorem build_search_query_tokenization_witness :
    Clause.matchFuzzy "company_names".toList
        (joinSpaces (splitCaps "AcmeWidgets".toList)) MEDIUM_BOOST ∈
      clausesForName "AcmeWidgets".toList
    ∧ Clause.matchFuzzy "company_names".toList "xyz".toList MEDIUM_BOOST ∉
        clausesForName "ab".toList :=
  ⟨(build_search_query_tokenization "AcmeWidgets".toList).2.1 (by decide),
    (build_search_query_tokenization "ab".toList).2.2.1 (by decide)
      "xyz".toList⟩

/-- C9 counterexample: the zero-criteria fallback is the bare match-all
query, which carries no sort specification at all. -/
theorem build_search_query_fallback_no_sort :
    build_search_query [] [] [] [] = EsQuery.matchAll
    ∧ ¬ specifiesScoreDescSort (build_search_query [] [] [] []) :=
  ⟨by rfl, by decide⟩

/-- C9 (amended). The result is the match-everything fallback exactly when
zero criteria are supplied (and that fallback carries no explicit sort);
whenever at least one criterion is supplied, the result is a bool-should
query explicitly sorted by relevance score descending. -/
theorem build_search_query_spec :
    (∀ names phones urls addresses : List PyStr,
      build_search_query names phones urls addresses = EsQuery.matchAll ↔
        (names = [] ∧ phones = [] ∧ urls = [] ∧ addresses = []))
    ∧ (∀ names phones urls addresses : List PyStr,
        (names ≠ [] ∨ phones ≠ [] ∨ urls ≠ [] ∨ addresses ≠ []) →
        ∃ should, build_search_query names phones urls addresses =
          EsQuery.boolShould should 1 [SortSpec.scoreDesc] ∧
          specifiesScoreDescSort
            (build_search_query names phones urls addresses)) := by
  constructor
  · intro names phones urls addresses
    cases names <;> cases phones <;> cases urls <;> cases addresses <;>
      simp [build_search_query, clausesForName]
  · intro names phones urls addresses h
    cases names <;> cases phones <;> cases urls <;> cases addresses <;>
      first
        | exact ⟨_, rfl, List.mem_singleton_self _⟩
        | (rcases h with h | h | h | h <;> exact absurd rfl h)

/-- Witness for C9: no criteria yield the match-all fallback, one name
yields an explicitly score-sorted bool query. -/
theorem build_search_query_spec_witness :
    build_search_query [] [] [] [] = EsQuery.matchAll
    ∧ ∃ should, build_search_query ["Acme".toList] [] [] [] =
        EsQuery.boolShould should 1 [SortSpec.scoreDesc] ∧
        specifiesScoreDescSort
          (build_search_query ["Acme".toList] [] [] []) :=
  ⟨(build_search_query_spec.1 [] [] [] []).mpr ⟨rfl, rfl, rfl, rfl⟩,
    build_search_query_spec.2 ["Acme".toList] [] [] []
      (Or.inl (by decide))⟩

end SearchDb
